import Mathlib

/-!
Verification of the Contract Risk Scanner (src/Scripts/risk_scanner.py).

Text is modelled as `List Char` (`Str`). Python string operations used by the
program are modelled character-exactly for the ASCII inputs the program deals
with: `str.lower` as `Char.toLower` on each character, `str.strip` as dropping
leading and trailing whitespace, single-character `str.split(sep)` as
`splitOnChar`, and the substring test `needle in hay` as `subStr`.

The rule table (a Python dict from category name to keyword list) is modelled
as an association list `Rules` preserving insertion order, which is exactly
the iteration order of a Python dict.
-/

abbrev Str := List Char

/-- The keyword table: category name paired with its keyword list, in
insertion order (models the Python dict `RISK_RULES`). -/
abbrev Rules := List (Str × List Str)

/-- Character-wise lowercasing, modelling Python `str.lower()` on ASCII text. -/
def lowerStr (s : Str) : Str := s.map Char.toLower

/-- Model of Python `str.strip()`: drop leading and trailing whitespace. -/
def stripStr (s : Str) : Str :=
  ((s.dropWhile Char.isWhitespace).reverse.dropWhile Char.isWhitespace).reverse

/-- Model of Python `str.split(sep)` for a single-character separator:
`"".split(".") = [""]`, and every occurrence of the separator produces a
boundary, so `"a..".split(".") = ["a", "", ""]`. -/
def splitOnChar (c : Char) : Str → List Str
  | [] => [[]]
  | x :: xs =>
    if x = c then [] :: splitOnChar c xs
    else
      match splitOnChar c xs with
      | t :: ts => (x :: t) :: ts
      | [] => [[x]]

/-- Boolean test that the first list is a leading block of the second. -/
def prefEq : Str → Str → Bool
  | [], _ => true
  | _ :: _, [] => false
  | a :: as, b :: bs => a == b && prefEq as bs

/-- Model of the Python substring test `needle in hay`. -/
def subStr (n : Str) : Str → Bool
  | [] => n.isEmpty
  | h₂ :: t => prefEq n (h₂ :: t) || subStr n t

/-- The default rule table `RISK_RULES` (src lines 19-25). -/
def RISK_RULES : Rules :=
  [("Indemnity".toList,
     ["indemnify".toList, "hold harmless".toList, "liability".toList,
      "compensate".toList]),
   ("Jurisdiction Risk".toList,
     ["jurisdiction".toList, "governing law".toList, "venue".toList,
      "court".toList]),
   ("Payment Risk".toList,
     ["penalty".toList, "late fee".toList, "interest".toList,
      "non-payment".toList]),
   ("Termination Risk".toList,
     ["terminate".toList, "termination".toList, "breach".toList]),
   ("Confidentiality Risk".toList,
     ["confidential".toList, "non-disclosure".toList, "nda".toList])]

/-- A finding before its AI summary is attached: the fields `Risk Type`,
`Keyword`, `Sentence` and `Line Number` built by `scan_contract`. -/
structure RawFinding where
  riskType : Str
  keyword : Str
  sentence : Str
  lineNumber : Nat
deriving DecidableEq, Repr

/-- A finding as appended by `scan_contract` (src lines 72-78), AI summary
included. -/
structure Finding where
  riskType : Str
  keyword : Str
  sentence : Str
  lineNumber : Nat
  aiSummary : Str
deriving DecidableEq, Repr

/-- Forget the AI summary of a finding. -/
def Finding.toRaw (f : Finding) : RawFinding :=
  ⟨f.riskType, f.keyword, f.sentence, f.lineNumber⟩

/-- The external OpenAI call inside `ai_summarize_risk`, abstracted as a
capability that either returns an explanation or fails with an error
description. -/
abbrev Summarizer := Str → Except Str Str

/-- Model of `ai_summarize_risk` (src lines 46-60): on success return the
summary, on any exception return the marker string
`"AI summary error: " ++ description`. -/
def ai_summarize_risk (summarize : Summarizer) (clause : Str) : Str :=
  match summarize clause with
  | Except.ok s => s
  | Except.error e => "AI summary error: ".toList ++ e

/-- The findings one sentence contributes, without summaries: the two inner
loops of `scan_contract` (src lines 66-78) for line index `i` (0-based). -/
def sentenceFindings (rules : Rules) (i : Nat) (line : Str) : List RawFinding :=
  rules.flatMap (fun cr =>
    cr.2.filterMap (fun kw =>
      if subStr (lowerStr kw) (lowerStr (stripStr line)) then
        some ⟨cr.1, kw, stripStr line, i + 1⟩
      else none))

/-- The loop `for i, line in enumerate(lines)` of `scan_contract`, keeping
only the matcher output (summaries stripped). -/
def scanLines (rules : Rules) : Nat → List Str → List RawFinding
  | _, [] => []
  | i, line :: rest => sentenceFindings rules i line ++ scanLines rules (i + 1) rest

/-- The rule-matching part of `scan_contract` (src lines 62-79): split the
text on the literal character `.`, then for each sentence, each category and
each keyword in rule-table order, emit a raw finding when the lowercased
keyword occurs in the stripped lowercased sentence. -/
def rawScan (rules : Rules) (text : Str) : List RawFinding :=
  scanLines rules 0 (splitOnChar '.' text)

/-- Attach a summary to one raw finding exactly as `scan_contract` does:
`ai_summarize_risk` is called on the stripped sentence text. -/
def enrichOne (s : Summarizer) (f : RawFinding) : Finding :=
  ⟨f.riskType, f.keyword, f.sentence, f.lineNumber,
   ai_summarize_risk s f.sentence⟩

/-- The enrichment step: attach a summary to every raw finding, in order. -/
def enrich (s : Summarizer) (fs : List RawFinding) : List Finding :=
  fs.map (enrichOne s)

/-- The findings one sentence contributes in the full `scan_contract`,
summary computed inline per match on `line.strip()` as in src line 71. -/
def sentenceFindingsAi (s : Summarizer) (rules : Rules) (i : Nat) (line : Str) :
    List Finding :=
  rules.flatMap (fun cr =>
    cr.2.filterMap (fun kw =>
      if subStr (lowerStr kw) (lowerStr (stripStr line)) then
        some ⟨cr.1, kw, stripStr line, i + 1,
              ai_summarize_risk s (stripStr line)⟩
      else none))

/-- The enumerate loop of the full `scan_contract`. -/
def scanLinesAi (s : Summarizer) (rules : Rules) : Nat → List Str → List Finding
  | _, [] => []
  | i, line :: rest =>
    sentenceFindingsAi s rules i line ++ scanLinesAi s rules (i + 1) rest

/-- Model of the full `scan_contract` (src lines 62-79), the summarizer call
inlined per match exactly as in the source. -/
def scan_contract (s : Summarizer) (rules : Rules) (text : Str) : List Finding :=
  scanLinesAi s rules 0 (splitOnChar '.' text)

/-- The three severity bands; the source renders them as the strings
`"Green"`, `"Yellow"` and `"Red"`, which the specification calls Clean,
Moderate and Elevated. -/
inductive SeverityBand
  | Clean
  | Moderate
  | Elevated
deriving DecidableEq, Repr

/-- The severity banding of `save_docx_report` (src lines 98-104): zero
findings, at most five findings, or more. -/
def score (numRisks : Nat) : SeverityBand :=
  if numRisks = 0 then SeverityBand.Clean
  else if numRisks ≤ 5 then SeverityBand.Moderate
  else SeverityBand.Elevated

/-- The string the source prints for each band. -/
def bandLabel : SeverityBand → Str
  | SeverityBand.Clean => "Green".toList
  | SeverityBand.Moderate => "Yellow".toList
  | SeverityBand.Elevated => "Red".toList

/-- The `score` variable of `save_docx_report` (src lines 98-104),
string-valued exactly as in the source. -/
def scoreLabel (numRisks : Nat) : Str :=
  if numRisks = 0 then "Green".toList
  else if numRisks ≤ 5 then "Yellow".toList
  else "Red".toList

/-- A tabular report: an optional header row of column names and the data
rows. -/
structure Table where
  header : List Str
  rows : List (List Str)
deriving DecidableEq, Repr

/-- The five column names, in the dict insertion order of the finding
records built by `scan_contract`. -/
def csvColumns : List Str :=
  ["Risk Type".toList, "Keyword".toList, "Sentence".toList,
   "Line Number".toList, "AI Summary".toList]

/-- The CSV row of one finding, its fields flattened to strings. -/
def findingRow (f : Finding) : List Str :=
  [f.riskType, f.keyword, f.sentence, (Nat.repr f.lineNumber).toList,
   f.aiSummary]

/-- Model of `save_csv_report` (src lines 85-90): `pd.DataFrame(results)`
derives its columns from the record keys, so an empty record list yields a
frame with no columns at all, and `to_csv(index=False)` then writes a table
with no header row; a non-empty record list yields the five columns in key
order and one row per record. -/
def save_csv_report (results : List Finding) : Table :=
  if results.isEmpty then ⟨[], []⟩
  else ⟨csvColumns, results.map findingRow⟩

/-- Whether `save_docx_report` highlights one word token (src lines 128-131):
some keyword of some category, lowercased, occurs in the lowercased token. -/
def wordHighlighted (rules : Rules) (word : Str) : Bool :=
  rules.any (fun cr =>
    cr.2.any (fun kw => subStr (lowerStr kw) (lowerStr word)))

/-- Model of the full-text highlight pass of `save_docx_report` (src lines
119-131): split the original text into paragraphs on newline, each paragraph
into word tokens on the single space character, and pair every token with
its highlight flag. The scan results are not consulted. -/
def highlightPass (rules : Rules) (text : Str) : List (List (Str × Bool)) :=
  (splitOnChar '\n' text).map (fun para =>
    (splitOnChar ' ' para).map (fun word =>
      (word, wordHighlighted rules word)))

/-- First-match lookup in the rule table, modelling Python dict access and
the `category in RISK_RULES` test. -/
def lookupCat (store : Rules) (name : Str) : Option (List Str) :=
  match store with
  | [] => none
  | cr :: rest => if cr.1 = name then some cr.2 else lookupCat rest name

/-- Model of the existing-category path of `add_keyword` (src lines 192-196):
the keyword is lowercased on input; if the category is absent the store is
left unchanged (only a message is printed); otherwise the keyword is appended
to the category's list unconditionally. -/
def add_keyword (store : Rules) (category kwRaw : Str) : Rules :=
  match lookupCat store category with
  | none => store
  | some _ =>
    store.map (fun cr =>
      if cr.1 = category then (cr.1, cr.2 ++ [lowerStr kwRaw]) else cr)

/-- Model of the NEW-category step of `add_keyword` (src line 190):
`RISK_RULES[new_cat] = []` is a plain dict assignment, so an existing
category of that name has its keyword list replaced by the empty list, and a
fresh name is inserted at the end with the empty list. -/
def create_category (store : Rules) (name : Str) : Rules :=
  match lookupCat store name with
  | some _ => store.map (fun cr => if cr.1 = name then (cr.1, []) else cr)
  | none => store ++ [(name, [])]

/-- Model of `remove_keyword` (src lines 199-210): absent category or absent
keyword leaves the store unchanged; otherwise `list.remove` deletes the
first occurrence of the lowercased keyword. -/
def remove_keyword (store : Rules) (category kwRaw : Str) : Rules :=
  match lookupCat store category with
  | none => store
  | some kws =>
    if lowerStr kwRaw ∈ kws then
      store.map (fun cr =>
        if cr.1 = category then (cr.1, cr.2.erase (lowerStr kwRaw)) else cr)
    else store

/-- A summarizer that always fails, used to exercise the all-failures case. -/
def failingSummarizer : Summarizer := fun _ => Except.error "service down".toList

/-- A one-category store with a single keyword, for concrete rule-management
scenarios. -/
def demoStore : Rules := [("Indemnity".toList, ["indemnify".toList])]

/-- A concrete raw finding. -/
def rawExample : RawFinding :=
  ⟨"Indemnity".toList, "indemnify".toList, "x indemnify y".toList, 1⟩

/-- A concrete enriched finding. -/
def sampleFinding : Finding :=
  ⟨"Indemnity".toList, "indemnify".toList, "x indemnify y".toList, 1,
   "summary".toList⟩

/-- The example contract text of the specification. -/
def exampleContract : Str :=
  "The Vendor shall indemnify the Client. Payment is due within 30 days.".toList

/-! ### Helper lemmas -/

example : rawScan RISK_RULES "no risk at all".toList = [] := by decide

theorem length_filterMap_guard {α β : Type} (p : α → Bool) (f : α → β) :
    ∀ l : List α,
      (l.filterMap fun x => if p x then some (f x) else none).length =
        l.countP p := by
  intro l
  induction l with
  | nil => rfl
  | cons a t ih =>
    by_cases h : p a = true
    · simp [List.filterMap_cons, h, ih, List.countP_cons]
    · simp [List.filterMap_cons, h, ih, List.countP_cons]

theorem length_sentenceFindings (rules : Rules) (i : Nat) (line : Str) :
    (sentenceFindings rules i line).length =
      (rules.map fun cr =>
        cr.2.countP fun kw =>
          subStr (lowerStr kw) (lowerStr (stripStr line))).sum := by
  unfold sentenceFindings
  rw [List.length_flatMap]
  congr 1
  apply List.map_congr_left
  intro cr _
  exact length_filterMap_guard _ _ cr.2

theorem length_scanLines (rules : Rules) :
    ∀ (i : Nat) (ls : List Str),
      (scanLines rules i ls).length =
        (ls.map fun line =>
          (rules.map fun cr =>
            cr.2.countP fun kw =>
              subStr (lowerStr kw) (lowerStr (stripStr line))).sum).sum := by
  intro i ls
  induction ls generalizing i with
  | nil => rfl
  | cons l rest ih =>
    simp [scanLines, length_sentenceFindings, ih]

theorem mem_sentenceFindings {rules : Rules} {i : Nat} {line : Str}
    {f : RawFinding} :
    f ∈ sentenceFindings rules i line ↔
      ∃ cr ∈ rules, f.riskType = cr.1 ∧ f.keyword ∈ cr.2 ∧
        subStr (lowerStr f.keyword) (lowerStr (stripStr line)) = true ∧
        f.sentence = stripStr line ∧ f.lineNumber = i + 1 := by
  obtain ⟨rt, kw0, sent, ln⟩ := f
  simp only [sentenceFindings, List.mem_flatMap, List.mem_filterMap]
  constructor
  · rintro ⟨cr, hcr, kw, hkw, hif⟩
    split at hif
    case isTrue hc =>
      simp only [Option.some.injEq, RawFinding.mk.injEq] at hif
      obtain ⟨h1, h2, h3, h4⟩ := hif
      subst h1; subst h2; subst h3; subst h4
      exact ⟨cr, hcr, rfl, hkw, hc, rfl, rfl⟩
    case isFalse hc => cases hif
  · rintro ⟨cr, hcr, h1, h2, h3, h4, h5⟩
    subst h1; subst h4; subst h5
    exact ⟨cr, hcr, kw0, h2, by simp [h3]⟩

theorem mem_scanLines {rules : Rules} {f : RawFinding} :
    ∀ {i : Nat} {ls : List Str},
      f ∈ scanLines rules i ls ↔
        ∃ j line, ls.get? j = some line ∧
          f ∈ sentenceFindings rules (i + j) line := by
  intro i ls
  induction ls generalizing i with
  | nil => simp [scanLines, List.get?_nil]
  | cons l rest ih =>
    simp only [scanLines, List.mem_append, ih]
    constructor
    · rintro (h | ⟨j, line, hj, hf⟩)
      · exact ⟨0, l, List.get?_cons_zero, by simpa using h⟩
      · refine ⟨j + 1, line, by simpa using hj, ?_⟩
        have harith : i + (j + 1) = (i + 1) + j := by omega
        rw [harith]; exact hf
    · rintro ⟨j, line, hj, hf⟩
      cases j with
      | zero =>
        rw [List.get?_cons_zero] at hj
        obtain rfl := Option.some.inj hj
        left
        simpa using hf
      | succ j =>
        right
        refine ⟨j, line, by simpa using hj, ?_⟩
        have harith : (i + 1) + j = i + (j + 1) := by omega
        rw [harith]; exact hf

theorem lineNumber_of_mem_sentenceFindings {rules : Rules} {i : Nat}
    {line : Str} {f : RawFinding} (h : f ∈ sentenceFindings rules i line) :
    f.lineNumber = i + 1 := by
  rcases mem_sentenceFindings.mp h with ⟨cr, _, _, _, _, _, h6⟩
  exact h6

theorem le_lineNumber_of_mem_scanLines {rules : Rules} {f : RawFinding} :
    ∀ {i : Nat} {ls : List Str},
      f ∈ scanLines rules i ls → i + 1 ≤ f.lineNumber := by
  intro i ls
  induction ls generalizing i with
  | nil => intro h; simp [scanLines] at h
  | cons l rest ih =>
    intro h
    rcases List.mem_append.mp h with h | h
    · rw [lineNumber_of_mem_sentenceFindings h]
    · have := ih h
      omega

theorem pairwise_of_forall_mem {α : Type} {R : α → α → Prop} :
    ∀ {l : List α}, (∀ a ∈ l, ∀ b ∈ l, R a b) → l.Pairwise R := by
  intro l
  induction l with
  | nil => intro _; exact List.Pairwise.nil
  | cons a t ih =>
    intro h
    refine List.Pairwise.cons ?_ (ih ?_)
    · intro b hb
      exact h a (List.mem_cons_self a t) b (List.mem_cons_of_mem a hb)
    · intro x hx y hy
      exact h x (List.mem_cons_of_mem a hx) y (List.mem_cons_of_mem a hy)

theorem pairwise_scanLines (rules : Rules) :
    ∀ (i : Nat) (ls : List Str),
      (scanLines rules i ls).Pairwise
        fun a b => a.lineNumber ≤ b.lineNumber := by
  intro i ls
  induction ls generalizing i with
  | nil => exact List.Pairwise.nil
  | cons l rest ih =>
    show (sentenceFindings rules i l ++ scanLines rules (i + 1) rest).Pairwise _
    rw [List.pairwise_append]
    refine ⟨?_, ih (i + 1), ?_⟩
    · apply pairwise_of_forall_mem
      intro a ha b hb
      rw [lineNumber_of_mem_sentenceFindings ha,
          lineNumber_of_mem_sentenceFindings hb]
    · intro a ha b hb
      have h1 := lineNumber_of_mem_sentenceFindings ha
      have h2 := le_lineNumber_of_mem_scanLines hb
      omega

theorem sentenceFindingsAi_eq (s : Summarizer) (rules : Rules) (i : Nat)
    (line : Str) :
    sentenceFindingsAi s rules i line =
      (sentenceFindings rules i line).map (enrichOne s) := by
  unfold sentenceFindingsAi sentenceFindings
  rw [List.map_flatMap]
  congr 1
  funext cr
  rw [List.map_filterMap]
  congr 1
  funext kw
  by_cases h : subStr (lowerStr kw) (lowerStr (stripStr line)) = true
  · simp [h, enrichOne]
  · simp [h]

theorem scanLinesAi_eq (s : Summarizer) (rules : Rules) :
    ∀ (i : Nat) (ls : List Str),
      scanLinesAi s rules i ls = (scanLines rules i ls).map (enrichOne s) := by
  intro i ls
  induction ls generalizing i with
  | nil => rfl
  | cons l rest ih =>
    simp [scanLinesAi, scanLines, sentenceFindingsAi_eq, ih]

theorem scan_contract_eq_enrich (s : Summarizer) (rules : Rules) (text : Str) :
    scan_contract s rules text = enrich s (rawScan rules text) :=
  scanLinesAi_eq s rules 0 (splitOnChar '.' text)

theorem toLower_eq_space {c : Char} (h : c.toLower = ' ') : c = ' ' := by
  simp only [Char.toLower] at h
  split at h
  case isTrue hc =>
    exfalso
    obtain ⟨h1, h2⟩ := hc
    generalize hm : c.toNat = m at h h1 h2
    interval_cases m <;> exact absurd h (by decide)
  case isFalse hc => exact h

theorem space_mem_lowerStr {s : Str} (h : ' ' ∈ s) : ' ' ∈ lowerStr s :=
  List.mem_map.mpr ⟨' ', h, by decide⟩

theorem space_not_mem_lowerStr {s : Str} (h : ' ' ∉ s) : ' ' ∉ lowerStr s := by
  intro hmem
  rcases List.mem_map.mp hmem with ⟨c, hc, hlc⟩
  exact h (toLower_eq_space hlc ▸ hc)

theorem mem_of_prefEq : ∀ (n h : Str), prefEq n h = true → ∀ c ∈ n, c ∈ h := by
  intro n
  induction n with
  | nil => intro h _ c hc; cases hc
  | cons a as ih =>
    intro h hp c hc
    cases h with
    | nil => simp [prefEq] at hp
    | cons b bs =>
      simp only [prefEq, Bool.and_eq_true, beq_iff_eq] at hp
      obtain ⟨rfl, hp2⟩ := hp
      rcases List.mem_cons.mp hc with rfl | hc2
      · exact List.mem_cons_self _ _
      · exact List.mem_cons_of_mem _ (ih bs hp2 c hc2)

theorem mem_of_subStr : ∀ (n h : Str), subStr n h = true → ∀ c ∈ n, c ∈ h := by
  intro n h
  induction h with
  | nil =>
    intro hs c hc
    cases n with
    | nil => cases hc
    | cons a as => simp [subStr, List.isEmpty] at hs
  | cons b bs ih =>
    intro hs c hc
    have hs' : prefEq n (b :: bs) = true ∨ subStr n bs = true := by
      simpa [subStr] using hs
    rcases hs' with h1 | h2
    · exact mem_of_prefEq n (b :: bs) h1 c hc
    · exact List.mem_cons_of_mem b (ih h2 c hc)

theorem subStr_space_false {kw w : Str} (hk : ' ' ∈ kw) (hw : ' ' ∉ w) :
    subStr (lowerStr kw) (lowerStr w) = false := by
  cases hb : subStr (lowerStr kw) (lowerStr w) with
  | false => rfl
  | true =>
    exfalso
    have h1 : ' ' ∈ lowerStr kw := space_mem_lowerStr hk
    have h2 : ' ' ∈ lowerStr w := mem_of_subStr _ _ hb ' ' h1
    exact space_not_mem_lowerStr hw h2

theorem splitOnChar_not_mem (c : Char) :
    ∀ (l : Str), ∀ t ∈ splitOnChar c l, c ∉ t := by
  intro l
  induction l with
  | nil =>
    intro t ht
    simp [splitOnChar] at ht
    simp [ht]
  | cons x xs ih =>
    intro t ht
    by_cases hx : x = c
    · rw [splitOnChar, if_pos hx] at ht
      rcases List.mem_cons.mp ht with h | h
      · simp [h]
      · exact ih t h
    · rw [splitOnChar, if_neg hx] at ht
      rcases he : splitOnChar c xs with _ | ⟨t₀, ts⟩
      · rw [he] at ht
        rcases List.mem_cons.mp ht with h | h
        · subst h
          intro hmem
          rcases List.mem_singleton.mp hmem with h
          · exact hx h.symm
        · exact absurd h (List.not_mem_nil t)
      · rw [he] at ht
        rcases List.mem_cons.mp ht with h | h
        · subst h
          intro hmem
          rcases List.mem_cons.mp hmem with h | h
          · exact hx h.symm
          · exact ih t₀ (he ▸ List.mem_cons_self t₀ ts) h
        · exact ih t (he ▸ List.mem_cons_of_mem t₀ h)

theorem get?_of_map {α β : Type} (f : α → β) :
    ∀ (l : List α) (n : Nat), (l.map f).get? n = (l.get? n).map f := by
  intro l
  induction l with
  | nil => intro n; simp [List.get?_nil]
  | cons a t ih =>
    intro n
    cases n with
    | zero => rfl
    | succ n => exact ih n

theorem any_congr_mem {α : Type} {p q : α → Bool} :
    ∀ l : List α, (∀ x ∈ l, p x = q x) → l.any p = l.any q := by
  intro l
  induction l with
  | nil => intro _; rfl
  | cons a t ih =>
    intro h
    simp only [List.any_cons]
    rw [h a (List.mem_cons_self a t),
        ih fun x hx => h x (List.mem_cons_of_mem a hx)]

theorem any_and_of_imp {α : Type} {p q : α → Bool} :
    ∀ l : List α, (∀ x ∈ l, p x = true → q x = true) →
      (l.any fun x => q x && p x) = l.any p := by
  intro l
  induction l with
  | nil => intro _; rfl
  | cons a t ih =>
    intro h
    simp only [List.any_cons]
    rw [ih fun x hx hp => h x (List.mem_cons_of_mem a hx) hp]
    cases hp : p a with
    | false => simp [hp]
    | true => simp [hp, h a (List.mem_cons_self a t) hp]

theorem lookupCat_mapUpdate (g : List Str → List Str) (k : Str) :
    ∀ (store : Rules) (name : Str),
      lookupCat
          (store.map fun cr => if cr.1 = k then (cr.1, g cr.2) else cr) name =
        if name = k then Option.map g (lookupCat store name)
        else lookupCat store name := by
  intro store
  induction store with
  | nil =>
    intro name
    by_cases h : name = k <;> simp [lookupCat, h]
  | cons cr rest ih =>
    intro name
    simp only [List.map_cons]
    by_cases hn : cr.1 = name
    · subst hn
      by_cases hk : cr.1 = k
      · subst hk
        simp [lookupCat]
      · simp [lookupCat, hk]
    · by_cases hk : cr.1 = k
      · subst hk
        simp [lookupCat, hn, ih]
      · simp [lookupCat, hn, hk, ih]

/-! ### Claim theorems -/

/-- C1: `scan_contract` splits the text on the literal character `.` alone;
for each sentence unit, each risk category and each keyword of that category
it emits a finding exactly when the lowercased keyword is a substring of the
sentence's trimmed lowercase form; one finding per matching (category,
keyword) pair, duplicates retained — the finding count is the sum over
sentences and categories of the number of matching keywords, multiplicity
included — and each finding carries the 1-based sentence ordinal. -/
theorem C1_matcher_characterisation (rules : Rules) (text : Str) :
    (∀ f : RawFinding,
       f ∈ rawScan rules text ↔
         ∃ j line, (splitOnChar '.' text).get? j = some line ∧
           ∃ cr ∈ rules, f.riskType = cr.1 ∧ f.keyword ∈ cr.2 ∧
             subStr (lowerStr f.keyword) (lowerStr (stripStr line)) = true ∧
             f.sentence = stripStr line ∧ f.lineNumber = j + 1) ∧
    (rawScan rules text).length =
      ((splitOnChar '.' text).map fun line =>
        (rules.map fun cr =>
          cr.2.countP fun kw =>
            subStr (lowerStr kw) (lowerStr (stripStr line))).sum).sum := by
  constructor
  · intro f
    rw [rawScan, mem_scanLines]
    constructor
    · rintro ⟨j, line, hj, hf⟩
      refine ⟨j, line, hj, ?_⟩
      have hm := mem_sentenceFindings.mp hf
      simpa using hm
    · rintro ⟨j, line, hj, hrest⟩
      refine ⟨j, line, hj, mem_sentenceFindings.mpr ?_⟩
      simpa using hrest
  · exact length_scanLines rules 0 (splitOnChar '.' text)

/-- C2: the severity band of `save_docx_report` is a pure function of the
finding count alone: 0 gives the clean band, 1 to 5 the moderate band, 6 or
more the elevated band, with exact boundaries at 0, 5 and 6; the source
renders the three bands as the strings "Green", "Yellow" and "Red" (the
specification's names Clean, Moderate, Elevated), and the string it prints
factors through this banding. -/
theorem C2_severity_thresholds (n : Nat) :
    (n = 0 → score n = SeverityBand.Clean) ∧
    (1 ≤ n → n ≤ 5 → score n = SeverityBand.Moderate) ∧
    (6 ≤ n → score n = SeverityBand.Elevated) ∧
    score 0 = SeverityBand.Clean ∧
    score 5 = SeverityBand.Moderate ∧
    score 6 = SeverityBand.Elevated ∧
    scoreLabel n = bandLabel (score n) := by
  refine ⟨?_, ?_, ?_, by decide, by decide, by decide, ?_⟩
  · intro h
    simp [score, h]
  · intro h1 h2
    rw [score, if_neg (by omega), if_pos h2]
  · intro h
    rw [score, if_neg (by omega), if_neg (by omega)]
  · by_cases h0 : n = 0
    · simp [scoreLabel, score, bandLabel, h0]
    · by_cases h5 : n ≤ 5 <;> simp [scoreLabel, score, bandLabel, h0, h5]

/-- Witness for C2 at the concrete counts 0, 3 and 7. -/
theorem C2_severity_thresholds_witness :
    score 0 = SeverityBand.Clean ∧ score 3 = SeverityBand.Moderate ∧
      score 7 = SeverityBand.Elevated :=
  ⟨(C2_severity_thresholds 0).1 rfl,
   (C2_severity_thresholds 3).2.1 (by decide) (by decide),
   (C2_severity_thresholds 7).2.2.1 (by decide)⟩

/-- C4: the matcher is a pure, deterministic function of the text and the
rule-store snapshot — in this embedding it is a plain function, so identical
(text, snapshot) pairs yield identical ordered findings — and its output is
in document order: sentence ordinals along the result are monotonically
nondecreasing, each sentence's findings being emitted contiguously in
rule-table iteration order of categories then keywords by construction of
`sentenceFindings`. -/
theorem C4_matcher_deterministic (rules rules' : Rules) (text text' : Str)
    (hr : rules = rules') (ht : text = text') :
    rawScan rules text = rawScan rules' text' ∧
    (rawScan rules text).Pairwise fun a b => a.lineNumber ≤ b.lineNumber := by
  constructor
  · rw [hr, ht]
  · exact pairwise_scanLines rules 0 (splitOnChar '.' text)

/-- Witness for C4 on a concrete two-sentence text. -/
theorem C4_matcher_deterministic_witness :
    rawScan RISK_RULES "We may terminate. Breach.".toList =
        rawScan RISK_RULES "We may terminate. Breach.".toList ∧
      (rawScan RISK_RULES "We may terminate. Breach.".toList).Pairwise
        fun a b => a.lineNumber ≤ b.lineNumber :=
  C4_matcher_deterministic RISK_RULES RISK_RULES
    "We may terminate. Breach.".toList "We may terminate. Breach.".toList
    rfl rfl

/-- C9: scanning the example text with the default rule table produces
exactly one finding, with category Indemnity, keyword "indemnify" and
sentence ordinal 1, whatever the summarizer returns. -/
theorem C9_example_scan (s : Summarizer) :
    scan_contract s RISK_RULES exampleContract =
      [⟨"Indemnity".toList, "indemnify".toList,
        "The Vendor shall indemnify the Client".toList, 1,
        ai_summarize_risk s "The Vendor shall indemnify the Client".toList⟩] := by
  rw [scan_contract_eq_enrich]
  have hraw : rawScan RISK_RULES exampleContract =
      [⟨"Indemnity".toList, "indemnify".toList,
        "The Vendor shall indemnify the Client".toList, 1⟩] := by decide
  rw [hraw]
  rfl

/-- C3: the enrichment step never aborts a scan and never drops a finding:
the enriched output has the same length and order as the raw input —
stripping the summaries returns exactly the input list, position by
position — a failed summarizer call puts the deterministic marker string
"AI summary error: " followed by the failure description in place of a
summary, and the full `scan_contract` is exactly this enrichment applied to
the matcher output, so the guarantee holds with every summarizer, including
one that fails on every call. -/
theorem C3_enricher_total (s : Summarizer) (rules : Rules) (text : Str)
    (fs : List RawFinding) :
    (enrich s fs).length = fs.length ∧
    (enrich s fs).map Finding.toRaw = fs ∧
    (∀ j : Nat, (enrich s fs).get? j = (fs.get? j).map (enrichOne s)) ∧
    (∀ f : RawFinding, ∀ e : Str, s f.sentence = Except.error e →
       (enrichOne s f).aiSummary = "AI summary error: ".toList ++ e) ∧
    scan_contract s rules text = enrich s (rawScan rules text) := by
  refine ⟨List.length_map fs (enrichOne s), ?_, ?_, ?_,
    scan_contract_eq_enrich s rules text⟩
  · rw [enrich, List.map_map]
    have hcomp : ∀ a ∈ fs, (Finding.toRaw ∘ enrichOne s) a = id a := by
      intro a _
      cases a
      rfl
    rw [List.map_congr_left hcomp, List.map_id]
  · intro j
    exact get?_of_map (enrichOne s) fs j
  · intro f e he
    simp [enrichOne, ai_summarize_risk, he]

/-- Witness for C3 with a summarizer that fails on every call. -/
theorem C3_enricher_total_witness :
    (enrich failingSummarizer [rawExample]).length = 1 ∧
    (enrichOne failingSummarizer rawExample).aiSummary =
      "AI summary error: ".toList ++ "service down".toList :=
  ⟨(C3_enricher_total failingSummarizer [] [] [rawExample]).1,
   (C3_enricher_total failingSummarizer [] [] [rawExample]).2.2.2.1
     rawExample "service down".toList rfl⟩

/-- C5 counterexample: adding the already-present keyword "indemnify" to its
category again is not a no-op — the stored keyword list gains a duplicate
entry. -/
theorem C5_counterexample :
    add_keyword demoStore "Indemnity".toList "indemnify".toList ≠ demoStore ∧
    add_keyword demoStore "Indemnity".toList "indemnify".toList =
      [("Indemnity".toList,
        ["indemnify".toList, "indemnify".toList])] :=
  ⟨by decide, by decide⟩

/-- C5 (amended): adding a keyword to an existing category appends its
lowercase form unconditionally and reports no error, so a duplicate add is
not a no-op — the category's stored list gains a duplicate entry — although
the set of distinct keywords of the category is unchanged; every other
category is untouched. -/
theorem C5_duplicate_add_appends (store : Rules) (cat kwRaw : Str)
    (kws : List Str) (h : lookupCat store cat = some kws) :
    lookupCat (add_keyword store cat kwRaw) cat =
        some (kws ++ [lowerStr kwRaw]) ∧
    (lowerStr kwRaw ∈ kws →
       ∀ x : Str, x ∈ kws ++ [lowerStr kwRaw] ↔ x ∈ kws) ∧
    ∀ other : Str, other ≠ cat →
      lookupCat (add_keyword store cat kwRaw) other = lookupCat store other := by
  have hadd : add_keyword store cat kwRaw =
      store.map fun cr =>
        if cr.1 = cat then (cr.1, cr.2 ++ [lowerStr kwRaw]) else cr := by
    unfold add_keyword
    rw [h]
  refine ⟨?_, ?_, ?_⟩
  · rw [hadd, lookupCat_mapUpdate (fun l => l ++ [lowerStr kwRaw]) cat store cat,
        if_pos rfl, h]
    rfl
  · intro hdup x
    rw [List.mem_append, List.mem_singleton]
    constructor
    · rintro (hx | rfl)
      · exact hx
      · exact hdup
    · intro hx
      exact Or.inl hx
  · intro other hne
    rw [hadd, lookupCat_mapUpdate (fun l => l ++ [lowerStr kwRaw]) cat store other,
        if_neg hne]

/-- Witness for C5 (amended) on the concrete one-category store. -/
theorem C5_duplicate_add_appends_witness :
    lookupCat (add_keyword demoStore "Indemnity".toList "indemnify".toList)
        "Indemnity".toList =
      some ["indemnify".toList, "indemnify".toList] := by
  have happ := (C5_duplicate_add_appends demoStore "Indemnity".toList
    "indemnify".toList ["indemnify".toList] (by decide)).1
  have heq : (["indemnify".toList] ++ [lowerStr "indemnify".toList] : List Str) =
      ["indemnify".toList, "indemnify".toList] := by decide
  exact heq ▸ happ

/-- C6 counterexample: re-creating the existing category "Indemnity" does
not fail and does not leave the store unchanged — the dict assignment
resets its keyword list to empty. -/
theorem C6_counterexample :
    create_category demoStore "Indemnity".toList =
        [("Indemnity".toList, [])] ∧
    create_category demoStore "Indemnity".toList ≠ demoStore :=
  ⟨by decide, by decide⟩

/-- C6 (amended): creating a category whose name already exists
(case-sensitively) is not rejected with an error: the `new_cat` assignment
resets that category's keyword list to the empty list, discarding its
keywords, while every other category is unchanged. -/
theorem C6_duplicate_create_resets (store : Rules) (name : Str)
    (kws : List Str) (h : lookupCat store name = some kws) :
    lookupCat (create_category store name) name = some [] ∧
    ∀ other : Str, other ≠ name →
      lookupCat (create_category store name) other = lookupCat store other := by
  have hc : create_category store name =
      store.map fun cr => if cr.1 = name then (cr.1, ([] : List Str)) else cr := by
    unfold create_category
    rw [h]
  constructor
  · rw [hc, lookupCat_mapUpdate (fun _ => ([] : List Str)) name store name,
        if_pos rfl, h]
    rfl
  · intro other hne
    rw [hc, lookupCat_mapUpdate (fun _ => ([] : List Str)) name store other,
        if_neg hne]

/-- Witness for C6 (amended) on the concrete one-category store. -/
theorem C6_duplicate_create_resets_witness :
    lookupCat (create_category demoStore "Indemnity".toList)
        "Indemnity".toList = some [] :=
  (C6_duplicate_create_resets demoStore "Indemnity".toList
    ["indemnify".toList] (by decide)).1

/-- C7 counterexample: on an empty scan result `pd.DataFrame([])` derives no
columns from its records, so the exported table has no header row at all —
not the header-only five-column table the claim describes. -/
theorem C7_counterexample :
    save_csv_report [] = ⟨[], []⟩ ∧
    (save_csv_report []).header ≠ csvColumns :=
  ⟨rfl, by decide⟩

/-- C7 (amended): the tabular export does not fail on an empty scan result,
but it produces an entirely empty table — zero rows and, because the
DataFrame of an empty record list has no columns, no header row either; a
non-empty result yields the fixed five-column header Risk Type, Keyword,
Sentence, Line Number, AI Summary and one row per finding, in order. -/
theorem C7_csv_export (results : List Finding) (hne : results ≠ []) :
    (save_csv_report []).rows = [] ∧
    (save_csv_report []).header = [] ∧
    (save_csv_report results).header = csvColumns ∧
    (save_csv_report results).rows = results.map findingRow ∧
    (save_csv_report results).rows.length = results.length := by
  have hempty : results.isEmpty = false := by
    cases results with
    | nil => exact absurd rfl hne
    | cons a t => rfl
  refine ⟨rfl, rfl, ?_, ?_, ?_⟩ <;> simp [save_csv_report, hempty]

/-- Witness for C7 (amended) on a one-finding result. -/
theorem C7_csv_export_witness :
    (save_csv_report [sampleFinding]).header = csvColumns ∧
    (save_csv_report [sampleFinding]).rows.length = 1 := by
  refine ⟨(C7_csv_export [sampleFinding] (by decide)).2.2.1, ?_⟩
  have hlen := (C7_csv_export [sampleFinding] (by decide)).2.2.2.2
  simpa using hlen

/-- C8: the annotated-document highlight pass reproduces every token of the
original text — paragraphs split on newline, tokens on the space character —
and marks a token exactly when some keyword of some configured category, the
full keyword vocabulary and not only the keywords that produced findings, is
a case-insensitive substring of the token; the scan result is not an input
of the pass at all, so the marking is independent of which sentences it
contains. -/
theorem C8_highlight_vocabulary (rules : Rules) (text : Str) :
    ((highlightPass rules text).map fun row => row.map Prod.fst) =
        ((splitOnChar '\n' text).map fun para => splitOnChar ' ' para) ∧
    ∀ row ∈ highlightPass rules text, ∀ wb ∈ row,
      (wb.2 = true ↔
        ∃ cr ∈ rules, ∃ kw ∈ cr.2,
          subStr (lowerStr kw) (lowerStr wb.1) = true) := by
  constructor
  · unfold highlightPass
    rw [List.map_map]
    apply List.map_congr_left
    intro para _
    show ((splitOnChar ' ' para).map
        fun word => (word, wordHighlighted rules word)).map Prod.fst =
      splitOnChar ' ' para
    rw [List.map_map]
    have hcomp : ∀ w ∈ splitOnChar ' ' para,
        (Prod.fst ∘ fun word => (word, wordHighlighted rules word)) w = id w := by
      intro w _
      rfl
    rw [List.map_congr_left hcomp, List.map_id]
  · intro row hrow wb hwb
    unfold highlightPass at hrow
    rcases List.mem_map.mp hrow with ⟨para, hpara, hroweq⟩
    subst hroweq
    rcases List.mem_map.mp hwb with ⟨w, hw, hwbeq⟩
    subst hwbeq
    simp [wordHighlighted, List.any_eq_true]

/-- Witness for C8: in the two-token text "liability cap", the token
"liability" is marked and the marking is equivalent to a vocabulary match. -/
theorem C8_highlight_vocabulary_witness :
    (("liability".toList, true) : Str × Bool).2 = true ↔
      ∃ cr ∈ RISK_RULES, ∃ kw ∈ cr.2,
        subStr (lowerStr kw)
          (lowerStr (("liability".toList, true) : Str × Bool).1) = true :=
  (C8_highlight_vocabulary RISK_RULES "liability cap".toList).2
    [("liability".toList, true), ("cap".toList, false)] (by decide)
    ("liability".toList, true) (by decide)

/-- C10: a keyword containing a space character can never cause a highlight
in the annotated document: highlight matching tests containment only within
single space-delimited tokens, which contain no space, so deleting every
space-containing keyword from the rule table — "hold harmless",
"governing law" and "late fee" in the default table — leaves the highlight
pass unchanged on every text, whether or not those keywords produced
findings. -/
theorem C10_space_keywords_never_highlight (rules : Rules) (text : Str) :
    highlightPass
        (rules.map fun cr =>
          (cr.1, cr.2.filter fun kw => !kw.contains ' ')) text =
      highlightPass rules text := by
  unfold highlightPass
  apply List.map_congr_left
  intro para _
  apply List.map_congr_left
  intro w hw
  have hwsp : ' ' ∉ w := splitOnChar_not_mem ' ' para w hw
  have hflag :
      wordHighlighted
          (rules.map fun cr =>
            (cr.1, cr.2.filter fun kw => !kw.contains ' ')) w =
        wordHighlighted rules w := by
    unfold wordHighlighted
    rw [List.any_map]
    apply any_congr_mem
    intro cr _
    show ((cr.1, cr.2.filter fun kw => !kw.contains ' ').2).any
        (fun kw => subStr (lowerStr kw) (lowerStr w)) =
      cr.2.any fun kw => subStr (lowerStr kw) (lowerStr w)
    rw [List.any_filter]
    apply any_and_of_imp
    intro kw _ hp
    cases hcont : kw.contains ' ' with
    | false => simp [hcont]
    | true =>
      exfalso
      have hk : ' ' ∈ kw := List.elem_iff.mp hcont
      rw [subStr_space_false hk hwsp] at hp
      exact Bool.noConfusion hp
  rw [hflag]
